import Mathlib

/-!
Verification of the splat_reducer repository.

The repository reduces PLY point clouds in two ways:
* `src/lod.py` — uniform random subsampling (`np.random.choice` without
  replacement over the row indices, `keep = int(total * keep_ratio)`);
* `src/lod_merge.py` — voxel-grid merging: per-axis key
  `np.floor(pos / voxel_size).astype(np.int32)`, grouping of row indices by
  key in a Python dict (insertion ordered), per-field aggregation by
  `np.mean` with a fallback to the first member's value when the mean
  computation fails, and a final renormalization of `nx,ny,nz` when those
  fields exist in the schema.

Numeric attribute values are modelled over `ℚ` (exact arithmetic in place of
IEEE floats); the normal renormalization, whose code takes a square root, is
modelled over `ℝ`.  Randomness of `np.random.choice(total, keep,
replace=False)` is made explicit: numpy draws the sample as the first `keep`
entries of a random permutation of `range(total)`, so the permutation is an
explicit parameter of the model.
-/

namespace Splat

/-- Value of one attribute of one PLY vertex record: either a numeric value
(modelled exactly over `ℚ`) or a non-numeric payload on which `np.mean`
fails. -/
inductive AttrValue : Type
| num (q : ℚ)
| raw (s : String)
deriving DecidableEq

/-- Whether `np.mean` can average this value. -/
def AttrValue.isNum : AttrValue → Bool
| .num _ => true
| .raw _ => false

/-- Numeric content of a value (junk `0` on non-numeric values; only used
under an `isNum` hypothesis). -/
def AttrValue.toQ : AttrValue → ℚ
| .num q => q
| .raw _ => 0

/-- One row of the structured vertex array: the mandatory numeric position
fields `x,y,z` and the remaining attributes in schema order. -/
structure PRecord : Type where
  x : ℚ
  y : ℚ
  z : ℚ
  others : List AttrValue
deriving DecidableEq

/-- Triple of per-axis voxel indices, the dict key of `lod_merge.py`. -/
abbrev VoxelKey : Type := ℤ × ℤ × ℤ

/-- Conversion of an integer to numpy `int32`: reduction into
`[-2^31, 2^31)`, as performed by `.astype(np.int32)`. -/
def toInt32 (n : ℤ) : ℤ := (n + 2 ^ 31) % 2 ^ 32 - 2 ^ 31

/-- Per-axis voxel index of `lod_merge.py` line 28:
`np.floor(c / voxel_size).astype(np.int32)`. -/
def axisKey (c v : ℚ) : ℤ := toInt32 ⌊c / v⌋

/-- Voxel key of one record (line 28, turned into a dict key on line 31). -/
def voxKey (p : PRecord) (v : ℚ) : VoxelKey := (axisKey p.x v, axisKey p.y v, axisKey p.z v)

/-- Voxel keys of all records, in row order (`vox_keys`). -/
def voxKeys (pts : List PRecord) (v : ℚ) : List VoxelKey := pts.map (fun p => voxKey p v)

/-- Insertion-ordered bucket map, modelling the Python dict of
`lod_merge.py` lines 34–38: a list of `(key, bucket)` pairs in key insertion
order.  `addToBucket` performs one loop iteration: append index `i` to the
bucket of `k`, creating the bucket at the end on first sight of `k`. -/
def addToBucket : List (VoxelKey × List ℕ) → VoxelKey → ℕ → List (VoxelKey × List ℕ)
| [], k, i => [(k, [i])]
| (k', l) :: t, k, i => if k' = k then (k', l ++ [i]) :: t else (k', l) :: addToBucket t k i

/-- The grouping loop of `lod_merge.py` lines 34–38, with `i` the index of
the next record to process and `acc` the dict built so far. -/
def buildAux : List VoxelKey → ℕ → List (VoxelKey × List ℕ) → List (VoxelKey × List ℕ)
| [], _, acc => acc
| k :: t, i, acc => buildAux t (i + 1) (addToBucket acc k i)

/-- `voxel_dict` after the grouping loop: buckets of row indices keyed by
voxel key, in key insertion order. -/
def buildGroups (keys : List VoxelKey) : List (VoxelKey × List ℕ) := buildAux keys 0 []

/-- Invariant carried through the grouping loop before iteration `i`:
buckets are non-empty, strictly ascending, and hold indices below `i`. -/
def BucketInv (i : ℕ) (acc : List (VoxelKey × List ℕ)) : Prop :=
  ∀ p ∈ acc, p.2 ≠ [] ∧ List.Sorted (· < ·) p.2 ∧ ∀ x ∈ p.2, x < i

/-- Arithmetic mean of a list of rationals (`np.mean`, exact model). -/
def meanQ (l : List ℚ) : ℚ := l.sum / l.length

/-- Outcome of `np.mean(subset[name])`: the mean when every value of the
field is numeric, failure (`none`, an exception in the source) otherwise. -/
def tryMeanField (vs : List AttrValue) : Option ℚ :=
  if vs.all AttrValue.isNum then some (meanQ (vs.map AttrValue.toQ)) else none

/-- Lines 51–55 of `lod_merge.py` for one field of one group: attempt the
mean; on failure copy the first member's value. -/
def aggField (vs : List AttrValue) : AttrValue :=
  match tryMeanField vs with
  | some q => .num q
  | none => vs.headD (.raw "")

/-- `data[indices]`: the records of a group selected from the vertex array. -/
def membersOf (pts : List PRecord) (idxs : List ℕ) : List PRecord :=
  idxs.filterMap (fun i => pts[i]?)

/-- Column `j` of the non-positional fields of a group of records. -/
def fieldVals (ms : List PRecord) (j : ℕ) : List AttrValue :=
  ms.map (fun m => m.others.getD j (.raw ""))

/-- The merged record of one group (`lod_merge.py` lines 48–55): every field
is aggregated by `aggField`; the positions `x,y,z` are always numeric so
their aggregate is the plain mean. -/
def aggRecord (ms : List PRecord) : PRecord :=
  ⟨meanQ (ms.map PRecord.x), meanQ (ms.map PRecord.y), meanQ (ms.map PRecord.z),
    (List.range ((ms.headD ⟨0, 0, 0, []⟩).others.length)).map (fun j => aggField (fieldVals ms j))⟩

/-- The merge path of `lod_merge.py` (lines 28–55, before normal
renormalization): group rows by voxel key, then emit one aggregated record
per key in key insertion order. -/
def mergePipeline (pts : List PRecord) (v : ℚ) : List PRecord :=
  (buildGroups (voxKeys pts v)).map (fun g => aggRecord (membersOf pts g.2))

/-- Key list in the order each key is first encountered, written from the
spec's words ("insertion order of keys = order in which each key is first
encountered while scanning points 0..N-1"), to be compared with the keys
produced by `buildGroups`. -/
def specFirstSeen (keys : List VoxelKey) : List VoxelKey :=
  keys.foldl (fun ks k => if k ∈ ks then ks else ks ++ [k]) []

/-- Python `int()` conversion of a (non-integer) number: truncation toward
zero. -/
def truncQ (q : ℚ) : ℤ := if 0 ≤ q then ⌊q⌋ else -⌊-q⌋

/-- `keep = int(total * keep_ratio)` of `lod.py` line 23. -/
def keepCount (total : ℕ) (r : ℚ) : ℕ := (truncQ ((total : ℚ) * r)).toNat

/-- `idx = np.random.choice(total, keep, replace=False)` (`lod.py` line 28),
with the underlying random permutation of `range(total)` explicit: the
sample is its first `keep` entries, in draw order. -/
def sampleIdx (total : ℕ) (r : ℚ) (perm : List ℕ) : List ℕ :=
  perm.take (keepCount total r)

/-- `reduced = vertices_np[idx]` (`lod.py` lines 28–29): the records at the
sampled indices, in draw order. -/
def select (pts : List PRecord) (r : ℚ) (perm : List ℕ) : List PRecord :=
  (sampleIdx pts.length r perm).filterMap (fun i => pts[i]?)

/-- Euclidean length of a normal vector, `np.sqrt(nx**2 + ny**2 + nz**2)`
(`lod_merge.py` line 59). -/
noncomputable def nrm (n : ℝ × ℝ × ℝ) : ℝ := Real.sqrt (n.1 ^ 2 + n.2.1 ^ 2 + n.2.2 ^ 2)

/-- Renormalization of one record's normal (`lod_merge.py` lines 59–62):
each component is divided by the length plus the `1e-9` epsilon. -/
noncomputable def renormOne (n : ℝ × ℝ × ℝ) : ℝ × ℝ × ℝ :=
  (n.1 / (nrm n + 1 / 1000000000), n.2.1 / (nrm n + 1 / 1000000000),
    n.2.2 / (nrm n + 1 / 1000000000))

/-- Lines 58–62 of `lod_merge.py`: renormalize every record's normal when
all of `nx,ny,nz` are in the schema (the `Bool` flags), otherwise do
nothing. -/
noncomputable def renormalize (hx hy hz : Bool) (rs : List (ℝ × ℝ × ℝ)) : List (ℝ × ℝ × ℝ) :=
  if hx && hy && hz then rs.map renormOne else rs

/-- Concrete records for witnesses. -/
def pA : PRecord := ⟨0, 0, 0, []⟩

def pB : PRecord := ⟨1, 0, 0, []⟩

def pC : PRecord := ⟨2, 0, 0, []⟩

/-- The point set of spec Example 1 — `(0,0,0)`, `(0.005,0,0)`, `(1,1,1)` —
carrying one extra numeric attribute. -/
def pts1 : List PRecord :=
  [⟨0, 0, 0, [.num 10]⟩, ⟨1 / 200, 0, 0, [.num 20]⟩, ⟨1, 1, 1, [.num 5]⟩]

/- ------------------------------------------------------------------ -/
/- Lemmas about the grouping loop.                                     -/
/- ------------------------------------------------------------------ -/

lemma addToBucket_flatten (acc : List (VoxelKey × List ℕ)) (k : VoxelKey) (i : ℕ) :
    ((addToBucket acc k i).map Prod.snd).flatten.Perm ((acc.map Prod.snd).flatten ++ [i]) := by
  induction acc with
  | nil => simp [addToBucket]
  | cons p t ih =>
    obtain ⟨k', l⟩ := p
    by_cases h : k' = k
    · subst h
      simp only [addToBucket, if_pos rfl, List.map_cons, List.flatten_cons]
      have h2 : List.Perm (l ++ ([i] ++ (t.map Prod.snd).flatten))
          (l ++ ((t.map Prod.snd).flatten ++ [i])) :=
        List.Perm.append_left l List.perm_append_comm
      simpa [List.append_assoc] using h2
    · simp only [addToBucket, if_neg h, List.map_cons, List.flatten_cons]
      simpa [List.append_assoc] using List.Perm.append_left l ih

lemma buildAux_flatten : ∀ (keys : List VoxelKey) (i : ℕ) (acc : List (VoxelKey × List ℕ)),
    ((buildAux keys i acc).map Prod.snd).flatten.Perm
      ((acc.map Prod.snd).flatten ++ List.range' i keys.length)
  | [], i, acc => by simp [buildAux]
  | k :: t, i, acc => by
    have h1 := buildAux_flatten t (i + 1) (addToBucket acc k i)
    have h2 := (addToBucket_flatten acc k i).append_right (List.range' (i + 1) t.length)
    have h3 := h1.trans h2
    simp only [buildAux, List.length_cons, List.range'_succ]
    simpa [List.append_assoc] using h3

lemma buildGroups_flatten (keys : List VoxelKey) :
    ((buildGroups keys).map Prod.snd).flatten.Perm (List.range keys.length) := by
  have h := buildAux_flatten keys 0 []
  simpa [buildGroups, List.range_eq_range'] using h

lemma addToBucket_inv : ∀ (acc : List (VoxelKey × List ℕ)) (k : VoxelKey) (i : ℕ),
    BucketInv i acc → BucketInv (i + 1) (addToBucket acc k i)
  | [], k, i, _ => by
    intro p hp
    simp only [addToBucket, List.mem_singleton] at hp
    subst hp
    refine ⟨by simp, List.sorted_singleton i, ?_⟩
    intro x hx
    simp only [List.mem_singleton] at hx
    omega
  | (k', l) :: t, k, i, h => by
    have hq := h (k', l) (by simp)
    have ht : BucketInv i t := fun p hp => h p (by simp [hp])
    by_cases hk : k' = k
    · subst hk
      intro p hp
      simp only [addToBucket, if_pos rfl] at hp
      rcases List.mem_cons.mp hp with h1 | h2
      · subst h1
        refine ⟨by simp, ?_, ?_⟩
        · refine List.pairwise_append.mpr ⟨hq.2.1, List.pairwise_singleton _ _, ?_⟩
          intro a ha b hb
          simp only [List.mem_singleton] at hb
          subst hb
          exact hq.2.2 a ha
        · intro x hx
          rcases List.mem_append.mp hx with hxl | hxi
          · exact Nat.lt_succ_of_lt (hq.2.2 x hxl)
          · simp only [List.mem_singleton] at hxi
            omega
      · exact ⟨(ht p h2).1, (ht p h2).2.1, fun x hx => Nat.lt_succ_of_lt ((ht p h2).2.2 x hx)⟩
    · intro p hp
      simp only [addToBucket, if_neg hk] at hp
      rcases List.mem_cons.mp hp with h1 | h2
      · subst h1
        exact ⟨hq.1, hq.2.1, fun x hx => Nat.lt_succ_of_lt (hq.2.2 x hx)⟩
      · exact addToBucket_inv t k i ht p h2

lemma buildAux_inv : ∀ (keys : List VoxelKey) (i : ℕ) (acc : List (VoxelKey × List ℕ)),
    BucketInv i acc → ∀ p ∈ buildAux keys i acc, p.2 ≠ [] ∧ List.Sorted (· < ·) p.2
  | [], i, acc, h => fun p hp => ⟨(h p hp).1, (h p hp).2.1⟩
  | k :: t, i, acc, h =>
    buildAux_inv t (i + 1) (addToBucket acc k i) (addToBucket_inv acc k i h)

lemma buildGroups_inv (keys : List VoxelKey) :
    ∀ p ∈ buildGroups keys, p.2 ≠ [] ∧ List.Sorted (· < ·) p.2 :=
  buildAux_inv keys 0 [] (fun p hp => absurd hp (List.not_mem_nil p))

/- ------------------------------------------------------------------ -/
/- C2 — the buckets partition the index range, stably.                 -/
/- ------------------------------------------------------------------ -/

/-- C2: for every PointSet and every voxel_size > 0, the buckets built by
the grouping step form an exact partition of `[0,N)` — the concatenation of
all buckets is a permutation of `range N`, so each index occurs in exactly
one bucket exactly once — and within each bucket indices appear in strictly
ascending original order. -/
theorem groups_partition (pts : List PRecord) (v : ℚ) (hv : 0 < v) :
    ((buildGroups (voxKeys pts v)).map Prod.snd).flatten.Perm (List.range pts.length) ∧
    ∀ p ∈ buildGroups (voxKeys pts v), List.Sorted (· < ·) p.2 := by
  constructor
  · have h := buildGroups_flatten (voxKeys pts v)
    simpa [voxKeys] using h
  · exact fun p hp => (buildGroups_inv (voxKeys pts v) p hp).2

/-- Witness for C2 at the Example-1 point set and voxel_size 1/100. -/
theorem groups_partition_w :
    ((buildGroups (voxKeys pts1 (1 / 100))).map Prod.snd).flatten.Perm
      (List.range pts1.length) ∧
    ∀ p ∈ buildGroups (voxKeys pts1 (1 / 100)), List.Sorted (· < ·) p.2 :=
  groups_partition pts1 (1 / 100) (by norm_num)

/- ------------------------------------------------------------------ -/
/- Key insertion order and output count.                               -/
/- ------------------------------------------------------------------ -/

lemma addToBucket_fst (acc : List (VoxelKey × List ℕ)) (k : VoxelKey) (i : ℕ) :
    (addToBucket acc k i).map Prod.fst =
      if k ∈ acc.map Prod.fst then acc.map Prod.fst else acc.map Prod.fst ++ [k] := by
  induction acc with
  | nil => simp [addToBucket]
  | cons p t ih =>
    obtain ⟨k', l⟩ := p
    by_cases h : k' = k
    · subst h
      simp [addToBucket]
    · simp only [addToBucket, if_neg h, List.map_cons, ih]
      by_cases hm : k ∈ t.map Prod.fst
      · simp [hm, Ne.symm h]
      · simp [hm, Ne.symm h]

lemma buildAux_fst : ∀ (keys : List VoxelKey) (i : ℕ) (acc : List (VoxelKey × List ℕ)),
    (buildAux keys i acc).map Prod.fst =
      keys.foldl (fun ks k => if k ∈ ks then ks else ks ++ [k]) (acc.map Prod.fst)
  | [], _, _ => rfl
  | k :: t, i, acc => by
    simp only [buildAux, List.foldl_cons]
    rw [buildAux_fst t (i + 1) (addToBucket acc k i), addToBucket_fst]

lemma buildGroups_fst (keys : List VoxelKey) :
    (buildGroups keys).map Prod.fst = specFirstSeen keys := by
  have h := buildAux_fst keys 0 []
  simpa [buildGroups, specFirstSeen] using h

lemma insFold_nodup : ∀ (keys init : List VoxelKey), init.Nodup →
    (keys.foldl (fun ks k => if k ∈ ks then ks else ks ++ [k]) init).Nodup
  | [], _, h => h
  | k :: t, init, h => by
    simp only [List.foldl_cons]
    apply insFold_nodup t
    by_cases hm : k ∈ init
    · simpa [hm] using h
    · rw [if_neg hm]
      refine h.append (List.nodup_singleton k) ?_
      intro x hx hxk
      simp only [List.mem_singleton] at hxk
      subst hxk
      exact hm hx

lemma insFold_toFinset : ∀ (keys init : List VoxelKey),
    (keys.foldl (fun ks k => if k ∈ ks then ks else ks ++ [k]) init).toFinset =
      init.toFinset ∪ keys.toFinset
  | [], init => by simp
  | k :: t, init => by
    simp only [List.foldl_cons]
    rw [insFold_toFinset t]
    by_cases hm : k ∈ init
    · rw [if_pos hm]
      ext a
      simp only [Finset.mem_union, List.mem_toFinset, List.toFinset_cons, Finset.mem_insert]
      constructor
      · tauto
      · rintro (h | h | h)
        · exact Or.inl h
        · subst h; exact Or.inl hm
        · exact Or.inr h
    · rw [if_neg hm]
      ext a
      simp only [Finset.mem_union, List.mem_toFinset, List.toFinset_cons, Finset.mem_insert,
        List.toFinset_append, List.mem_append, List.mem_singleton]
      tauto

lemma specFirstSeen_nodup (keys : List VoxelKey) : (specFirstSeen keys).Nodup :=
  insFold_nodup keys [] List.nodup_nil

lemma specFirstSeen_toFinset (keys : List VoxelKey) :
    (specFirstSeen keys).toFinset = keys.toFinset := by
  have h := insFold_toFinset keys []
  simpa [specFirstSeen] using h

lemma specFirstSeen_length (keys : List VoxelKey) :
    (specFirstSeen keys).length = keys.toFinset.card := by
  rw [← specFirstSeen_toFinset keys, List.toFinset_card_of_nodup (specFirstSeen_nodup keys)]

lemma toFinset_card_len_iff (keys : List VoxelKey) :
    keys.toFinset.card = keys.length ↔ keys.Nodup := by
  constructor
  · intro h
    rw [List.card_toFinset] at h
    have hs := (List.dedup_sublist keys).eq_of_length h
    rw [← hs]
    exact keys.nodup_dedup
  · exact fun h => List.toFinset_card_of_nodup h

lemma buildGroups_length (keys : List VoxelKey) :
    (buildGroups keys).length = keys.toFinset.card := by
  have h := congrArg List.length (buildGroups_fst keys)
  simpa [specFirstSeen_length] using h

/- ------------------------------------------------------------------ -/
/- C1 — one output record per distinct key, in first-seen order.       -/
/- ------------------------------------------------------------------ -/

/-- C1: for every non-empty PointSet and voxel_size > 0, the merge path
produces exactly one output record per distinct voxel key (the emitted key
sequence is duplicate-free), emitted in the order each key is first
encountered while scanning points `0..N-1` (it equals `specFirstSeen`, the
spec-side first-encounter ordering); hence the output count equals the
number of distinct voxel keys, is at most `N`, and equals `N` iff every
point occupies a distinct voxel (key). -/
theorem merge_count_order (pts : List PRecord) (v : ℚ) (hv : 0 < v) (hne : pts ≠ []) :
    (mergePipeline pts v).length = (voxKeys pts v).toFinset.card ∧
    (buildGroups (voxKeys pts v)).map Prod.fst = specFirstSeen (voxKeys pts v) ∧
    ((buildGroups (voxKeys pts v)).map Prod.fst).Nodup ∧
    (mergePipeline pts v).length ≤ pts.length ∧
    ((mergePipeline pts v).length = pts.length ↔ (voxKeys pts v).Nodup) := by
  have hlen : (mergePipeline pts v).length = (voxKeys pts v).toFinset.card := by
    simpa [mergePipeline, List.length_map] using buildGroups_length (voxKeys pts v)
  have hkl : (voxKeys pts v).length = pts.length := by simp [voxKeys]
  refine ⟨hlen, buildGroups_fst _, ?_, ?_, ?_⟩
  · rw [buildGroups_fst]
    exact specFirstSeen_nodup _
  · rw [hlen, ← hkl]
    exact @List.toFinset_card_le VoxelKey _ (voxKeys pts v)
  · rw [hlen, ← hkl]
    exact toFinset_card_len_iff _

/-- Witness for C1 at the Example-1 point set and voxel_size 1/100. -/
theorem merge_count_order_w :
    (mergePipeline pts1 (1 / 100)).length = (voxKeys pts1 (1 / 100)).toFinset.card ∧
    (buildGroups (voxKeys pts1 (1 / 100))).map Prod.fst = specFirstSeen (voxKeys pts1 (1 / 100)) ∧
    ((buildGroups (voxKeys pts1 (1 / 100))).map Prod.fst).Nodup ∧
    (mergePipeline pts1 (1 / 100)).length ≤ pts1.length ∧
    ((mergePipeline pts1 (1 / 100)).length = pts1.length ↔ (voxKeys pts1 (1 / 100)).Nodup) :=
  merge_count_order pts1 (1 / 100) (by norm_num) (by simp [pts1])

/- ------------------------------------------------------------------ -/
/- Group membership bounds and per-field aggregation.                  -/
/- ------------------------------------------------------------------ -/

lemma buildGroups_mem_lt (keys : List VoxelKey) (p : VoxelKey × List ℕ)
    (hp : p ∈ buildGroups keys) : ∀ i ∈ p.2, i < keys.length := by
  intro i hi
  have hmem : i ∈ ((buildGroups keys).map Prod.snd).flatten :=
    List.mem_flatten.mpr ⟨p.2, List.mem_map_of_mem Prod.snd hp, hi⟩
  have h2 := (buildGroups_flatten keys).mem_iff.mp hmem
  simpa using h2

lemma length_filterMap_getElem (pts : List PRecord) :
    ∀ l : List ℕ, (∀ i ∈ l, i < pts.length) →
      (l.filterMap (fun i => pts[i]?)).length = l.length
  | [], _ => rfl
  | a :: t, h => by
    have ha : a < pts.length := h a (by simp)
    have hsome : pts[a]? = some pts[a] := List.getElem?_eq_getElem ha
    have ih := length_filterMap_getElem pts t (fun i hi => h i (by simp [hi]))
    simp [List.filterMap_cons, hsome, ih]

lemma membersOf_length (pts : List PRecord) (idxs : List ℕ)
    (h : ∀ i ∈ idxs, i < pts.length) : (membersOf pts idxs).length = idxs.length :=
  length_filterMap_getElem pts idxs h

lemma membersOf_ne_nil (pts : List PRecord) (idxs : List ℕ)
    (h : ∀ i ∈ idxs, i < pts.length) (hne : idxs ≠ []) : membersOf pts idxs ≠ [] := by
  have hl := membersOf_length pts idxs h
  intro hcontra
  rw [hcontra] at hl
  exact hne (List.length_eq_zero.mp hl.symm)

/- ------------------------------------------------------------------ -/
/- C3 — numeric output fields are the group means.                     -/
/- ------------------------------------------------------------------ -/

/-- C3: every merge output record is the aggregate of the members of its
voxel group (the group is non-empty), and the aggregate of every numeric
field — the positions always, and any other field all of whose group values
are numeric — is the arithmetic mean (sum divided by member count) of that
field over the group's members.  The model accumulates exactly (over `ℚ`),
mirroring the double-precision accumulation of `np.mean`. -/
theorem merge_mean (pts : List PRecord) (v : ℚ) (hv : 0 < v) :
    (∀ gi (h : gi < (buildGroups (voxKeys pts v)).length),
      (mergePipeline pts v)[gi]? =
        some (aggRecord (membersOf pts ((buildGroups (voxKeys pts v)).get ⟨gi, h⟩).2)) ∧
      membersOf pts ((buildGroups (voxKeys pts v)).get ⟨gi, h⟩).2 ≠ []) ∧
    (∀ ms : List PRecord, ms ≠ [] →
      (aggRecord ms).x = (ms.map PRecord.x).sum / ms.length ∧
      (aggRecord ms).y = (ms.map PRecord.y).sum / ms.length ∧
      (aggRecord ms).z = (ms.map PRecord.z).sum / ms.length ∧
      ∀ j < (ms.headD ⟨0, 0, 0, []⟩).others.length,
        (aggRecord ms).others[j]? = some (aggField (fieldVals ms j)) ∧
        ((∀ a ∈ fieldVals ms j, a.isNum = true) →
          aggField (fieldVals ms j) =
            .num (((fieldVals ms j).map AttrValue.toQ).sum / (fieldVals ms j).length))) := by
  constructor
  · intro gi h
    have hget : (buildGroups (voxKeys pts v))[gi]? =
        some ((buildGroups (voxKeys pts v)).get ⟨gi, h⟩) := by
      rw [List.getElem?_eq_getElem h]
      rfl
    have hmem : (buildGroups (voxKeys pts v)).get ⟨gi, h⟩ ∈ buildGroups (voxKeys pts v) :=
      List.get_mem _ _ h
    have hbound : ∀ i ∈ ((buildGroups (voxKeys pts v)).get ⟨gi, h⟩).2, i < pts.length := by
      intro i hi
      have := buildGroups_mem_lt (voxKeys pts v) _ hmem i hi
      simpa [voxKeys] using this
    constructor
    · simp [mergePipeline, List.getElem?_map, hget]
    · exact membersOf_ne_nil pts _ hbound (buildGroups_inv _ _ hmem).1
  · intro ms hne
    refine ⟨?_, ?_, ?_, ?_⟩
    · simp [aggRecord, meanQ, List.length_map]
    · simp [aggRecord, meanQ, List.length_map]
    · simp [aggRecord, meanQ, List.length_map]
    · intro j hj
      constructor
      · simp only [aggRecord, List.getElem?_map, List.getElem?_range hj, Option.map_some']
      · intro hnum
        have hall : (fieldVals ms j).all AttrValue.isNum = true :=
          List.all_eq_true.mpr hnum
        simp [aggField, tryMeanField, hall, meanQ, List.length_map]

/-- Witness for C3 at the Example-1 point set and voxel_size 1/100. -/
theorem merge_mean_w :
    (∀ gi (h : gi < (buildGroups (voxKeys pts1 (1 / 100))).length),
      (mergePipeline pts1 (1 / 100))[gi]? =
        some (aggRecord (membersOf pts1 ((buildGroups (voxKeys pts1 (1 / 100))).get ⟨gi, h⟩).2)) ∧
      membersOf pts1 ((buildGroups (voxKeys pts1 (1 / 100))).get ⟨gi, h⟩).2 ≠ []) ∧
    (∀ ms : List PRecord, ms ≠ [] →
      (aggRecord ms).x = (ms.map PRecord.x).sum / ms.length ∧
      (aggRecord ms).y = (ms.map PRecord.y).sum / ms.length ∧
      (aggRecord ms).z = (ms.map PRecord.z).sum / ms.length ∧
      ∀ j < (ms.headD ⟨0, 0, 0, []⟩).others.length,
        (aggRecord ms).others[j]? = some (aggField (fieldVals ms j)) ∧
        ((∀ a ∈ fieldVals ms j, a.isNum = true) →
          aggField (fieldVals ms j) =
            .num (((fieldVals ms j).map AttrValue.toQ).sum / (fieldVals ms j).length))) :=
  merge_mean pts1 (1 / 100) (by norm_num)

/- ------------------------------------------------------------------ -/
/- C9 — the only silent fallback is the documented first-value case.   -/
/- ------------------------------------------------------------------ -/

/-- C9: per-field aggregation either returns the arithmetic mean of the
field, or — exactly when the field contains a non-numeric value, the one
documented tie-break — copies the first member's value.  No other silent
replacement by a default exists in the aggregation; in the model, a failure
of the numeric mean can only arise from a non-numeric value, which is
precisely the documented case. -/
theorem agg_no_silent_default (vs : List AttrValue) (hne : vs ≠ []) :
    aggField vs = .num ((vs.map AttrValue.toQ).sum / vs.length) ∨
    ((∃ a ∈ vs, a.isNum = false) ∧ aggField vs = vs.headD (.raw "")) := by
  by_cases h : vs.all AttrValue.isNum = true
  · left
    simp [aggField, tryMeanField, h, meanQ, List.length_map]
  · right
    constructor
    · have h2 : ¬ ∀ a ∈ vs, AttrValue.isNum a = true := by
        simpa [List.all_eq_true] using h
      push_neg at h2
      obtain ⟨a, ha, hna⟩ := h2
      exact ⟨a, ha, by simpa using hna⟩
    · have hf : vs.all AttrValue.isNum = false := by
        simpa using h
      simp [aggField, tryMeanField, hf]

/-- Witness for C9 at a field whose second value is non-numeric. -/
theorem agg_no_silent_default_w :
    aggField [.num 1, .raw "c"] =
      .num ((([.num 1, .raw "c"] : List AttrValue).map AttrValue.toQ).sum /
        ([.num 1, .raw "c"] : List AttrValue).length) ∨
    ((∃ a ∈ ([.num 1, .raw "c"] : List AttrValue), a.isNum = false) ∧
      aggField [.num 1, .raw "c"] = ([.num 1, .raw "c"] : List AttrValue).headD (.raw "")) :=
  agg_no_silent_default [.num 1, .raw "c"] (by simp)

/- ------------------------------------------------------------------ -/
/- C4 — true floor (not truncation), cast to int32.                    -/
/- ------------------------------------------------------------------ -/

lemma toInt32_eq_self (n : ℤ) (hl : -(2 ^ 31) ≤ n) (hr : n < 2 ^ 31) : toInt32 n = n := by
  have h31 : (2 : ℤ) ^ 31 = 2147483648 := by norm_num
  have h32 : (2 : ℤ) ^ 32 = 4294967296 := by norm_num
  unfold toInt32
  rw [h31, h32]
  rw [h31] at hl hr
  omega

/-- C4: for every coordinate (negative ones included) and voxel_size > 0
whose floor index fits in 32 bits, the per-axis voxel key is the true
mathematical floor of `coordinate / voxel_size`; in particular at the
negative coordinate `-1/2` (cell size 1) the key is `-1`, whereas
truncation toward zero (Python `int()`, modelled by `truncQ`) would give
`0`. -/
theorem voxel_key_floor (c v : ℚ) (hv : 0 < v)
    (hl : -(2 ^ 31) ≤ ⌊c / v⌋) (hr : ⌊c / v⌋ < 2 ^ 31) :
    axisKey c v = ⌊c / v⌋ ∧
    axisKey (-(1 / 2)) 1 = -1 ∧
    truncQ (-(1 / 2) / 1) = 0 := by
  refine ⟨toInt32_eq_self _ hl hr, ?_, ?_⟩
  · norm_num [axisKey, toInt32]
  · norm_num [truncQ]

/-- Witness for C4 at the negative coordinate `-1/2` with voxel_size 1. -/
theorem voxel_key_floor_w :
    axisKey (-(1 / 2)) 1 = ⌊(-(1 / 2) : ℚ) / 1⌋ ∧
    axisKey (-(1 / 2)) 1 = -1 ∧
    truncQ (-(1 / 2) / 1) = 0 :=
  voxel_key_floor (-(1 / 2)) 1 (by norm_num) (by norm_num) (by norm_num)

/- ------------------------------------------------------------------ -/
/- C10 — int32 wrap-around of voxel keys.                              -/
/- ------------------------------------------------------------------ -/

/-- C10: voxel keys are reduced to 32-bit signed integers, so a position
whose true floor index differs by `2^32` from another's receives the same
key — `x = 2^32` and `x = 0` collide at voxel_size 1 although their true
floors differ, and the two points are merged into a single output record —
and a position with floor index `2^31` wraps to `-2^31`. -/
theorem int32_wrap_collision :
    axisKey (2 ^ 32) 1 = axisKey 0 1 ∧
    ⌊((2 : ℚ) ^ 32) / 1⌋ ≠ ⌊((0 : ℚ)) / 1⌋ ∧
    axisKey (2 ^ 31) 1 = -(2 ^ 31) ∧
    (mergePipeline [⟨0, 0, 0, []⟩, ⟨2 ^ 32, 0, 0, []⟩] 1).length = 1 := by
  refine ⟨?_, ?_, ?_, ?_⟩
  · norm_num [axisKey, toInt32]
  · norm_num
  · norm_num [axisKey, toInt32]
  · have hk : voxKeys [⟨0, 0, 0, []⟩, ⟨2 ^ 32, 0, 0, []⟩] 1 = [(0, 0, 0), (0, 0, 0)] := by
      norm_num [voxKeys, voxKey, axisKey, toInt32]
    simp only [mergePipeline, List.length_map]
    rw [hk]
    decide

/- ------------------------------------------------------------------ -/
/- C5 — there is no parameter validation.                              -/
/- ------------------------------------------------------------------ -/

lemma select_length (pts : List PRecord) (r : ℚ) (perm : List ℕ)
    (hp : perm.Perm (List.range pts.length)) (hk : keepCount pts.length r ≤ pts.length) :
    (select pts r perm).length = keepCount pts.length r := by
  have hlp : perm.length = pts.length := by simpa using hp.length_eq
  have hb : ∀ i ∈ perm, i < pts.length := by
    intro i hi
    have h2 := hp.mem_iff.mp hi
    simpa using h2
  have hball : ∀ i ∈ sampleIdx pts.length r perm, i < pts.length := by
    intro i hi
    exact hb i (List.mem_of_mem_take hi)
  have hlen := length_filterMap_getElem pts (sampleIdx pts.length r perm) hball
  have htake : (sampleIdx pts.length r perm).length = keepCount pts.length r := by
    simp only [sampleIdx, List.length_take, hlp]
    omega
  calc (select pts r perm).length
      = (sampleIdx pts.length r perm).length := hlen
    _ = keepCount pts.length r := htake

/-- C5 counterexample: merging with the invalid parameter
voxel_size = −1 ≤ 0 still produces an output record (no failure, output
non-empty), and subsampling with the invalid keep_ratio 11/10 > 1 at N = 3
still produces 3 output records — contradicting "fails before any
processing and produces no output". -/
theorem no_validation_cex :
    ((-1 : ℚ) ≤ 0 ∧ (mergePipeline [⟨0, 0, 0, []⟩] (-1)).length = 1) ∧
    (1 < (11 / 10 : ℚ) ∧ (select [pA, pB, pC] (11 / 10) [0, 1, 2]).length = 3) := by
  refine ⟨⟨by norm_num, ?_⟩, by norm_num, ?_⟩
  · have hk : voxKeys [⟨0, 0, 0, []⟩] (-1) = [(0, 0, 0)] := by
      norm_num [voxKeys, voxKey, axisKey, toInt32]
    simp only [mergePipeline, List.length_map]
    rw [hk]
    decide
  · have hkc : keepCount 3 (11 / 10) = 3 := by
      have ht : truncQ ((3 : ℚ) * (11 / 10)) = 3 := by norm_num [truncQ]
      simp [keepCount, ht]
    simp [select, sampleIdx, hkc, pA, pB, pC]

/-- C5 amended: the scripts perform no parameter validation.  Merging with a
negative voxel_size completes and produces at least one output record for a
non-empty input, and subsampling with any keep_ratio ≥ 0 — including ratios
above 1 — succeeds and produces exactly `int(N * keep_ratio)` records
whenever that count is at most `N`; no InvalidParameter failure exists. -/
theorem no_validation (pts : List PRecord) (v r : ℚ) (perm : List ℕ)
    (hv : v < 0) (hne : pts ≠ []) (hr : 0 ≤ r)
    (hp : perm.Perm (List.range pts.length)) (hk : keepCount pts.length r ≤ pts.length) :
    1 ≤ (mergePipeline pts v).length ∧
    (select pts r perm).length = keepCount pts.length r := by
  constructor
  · have h1 : voxKeys pts v ≠ [] := by
      simp [voxKeys, hne]
    obtain ⟨k, hkmem⟩ := List.exists_mem_of_ne_nil _ h1
    have hpos : 0 < (voxKeys pts v).toFinset.card :=
      Finset.card_pos.mpr ⟨k, List.mem_toFinset.mpr hkmem⟩
    have hlen : (mergePipeline pts v).length = (voxKeys pts v).toFinset.card := by
      simpa [mergePipeline, List.length_map] using buildGroups_length (voxKeys pts v)
    omega
  · exact select_length pts r perm hp hk

/-- Witness for the amended C5 at one point, voxel_size −1, keep_ratio
11/10 and the identity draw. -/
theorem no_validation_w :
    1 ≤ (mergePipeline [pA] (-1)).length ∧
    (select [pA] (11 / 10) [0]).length = keepCount [pA].length (11 / 10) :=
  no_validation [pA] (-1) (11 / 10) [0] (by norm_num) (by simp [pA]) (by norm_num)
    (by decide)
    (by
      have ht : truncQ ((11 : ℚ) / 10) = 1 := by norm_num [truncQ]
      simp [keepCount, ht])

/- ------------------------------------------------------------------ -/
/- C6 — subsample count, distinctness, and the edge ratios.            -/
/- ------------------------------------------------------------------ -/

lemma keepCount_floor (N : ℕ) (r : ℚ) (h0 : 0 ≤ r) :
    (keepCount N r : ℤ) = ⌊(N : ℚ) * r⌋ := by
  have hnn : (0 : ℚ) ≤ (N : ℚ) * r := mul_nonneg (Nat.cast_nonneg N) h0
  have hfl : (0 : ℤ) ≤ ⌊(N : ℚ) * r⌋ := Int.floor_nonneg.mpr hnn
  simp only [keepCount, truncQ, if_pos hnn]
  exact Int.toNat_of_nonneg hfl

lemma keepCount_le (N : ℕ) (r : ℚ) (h0 : 0 ≤ r) (h1 : r ≤ 1) : keepCount N r ≤ N := by
  have hfl : ⌊(N : ℚ) * r⌋ ≤ (N : ℤ) := by
    have hle : (N : ℚ) * r ≤ (N : ℚ) := by
      calc (N : ℚ) * r ≤ (N : ℚ) * 1 := mul_le_mul_of_nonneg_left h1 (Nat.cast_nonneg N)
        _ = (N : ℚ) := mul_one _
    calc ⌊(N : ℚ) * r⌋ ≤ ⌊(N : ℚ)⌋ := Int.floor_le_floor hle
      _ = (N : ℤ) := Int.floor_natCast N
  have hkf := keepCount_floor N r h0
  omega

/-- C6: for every PointSet of size N, keep_ratio in [0,1] and valid random
draw (a permutation of `range N`), the subsampling path outputs exactly
`⌊N * keep_ratio⌋` records, drawn as distinct original indices without
replacement; keep_ratio 0 yields an empty result and keep_ratio 1 yields
all N indices exactly once. -/
theorem subsample_count (pts : List PRecord) (r : ℚ) (perm : List ℕ)
    (hp : perm.Perm (List.range pts.length)) (h0 : 0 ≤ r) (h1 : r ≤ 1) :
    (select pts r perm).length = keepCount pts.length r ∧
    (keepCount pts.length r : ℤ) = ⌊(pts.length : ℚ) * r⌋ ∧
    (sampleIdx pts.length r perm).Nodup ∧
    (r = 0 → select pts r perm = []) ∧
    (r = 1 → (sampleIdx pts.length r perm).Perm (List.range pts.length)) := by
  have hlp : perm.length = pts.length := by simpa using hp.length_eq
  have hnd : perm.Nodup := hp.nodup_iff.mpr (List.nodup_range _)
  refine ⟨select_length pts r perm hp (keepCount_le _ r h0 h1),
    keepCount_floor _ r h0, ?_, ?_, ?_⟩
  · exact hnd.sublist (List.take_sublist _ _)
  · intro hr0
    subst hr0
    have hkc : keepCount pts.length 0 = 0 := by
      simp [keepCount, truncQ]
    simp [select, sampleIdx, hkc]
  · intro hr1
    subst hr1
    have h2 : truncQ ((pts.length : ℚ)) = (pts.length : ℤ) := by
      simp only [truncQ]
      rw [if_pos (by positivity)]
      exact Int.floor_natCast _
    have hkc : keepCount pts.length 1 = pts.length := by
      simp [keepCount, h2]
    have htake : perm.take pts.length = perm := by
      rw [← hlp]
      simp
    show (perm.take (keepCount pts.length 1)).Perm (List.range pts.length)
    rw [hkc, htake]
    exact hp

/-- Witness for C6 at three points, keep_ratio 1/3 and the draw
`[2, 0, 1]`. -/
theorem subsample_count_w :
    (select [pA, pB, pC] (1 / 3) [2, 0, 1]).length = keepCount [pA, pB, pC].length (1 / 3) ∧
    (keepCount [pA, pB, pC].length (1 / 3) : ℤ) = ⌊(([pA, pB, pC] : List PRecord).length : ℚ) * (1 / 3)⌋ ∧
    (sampleIdx [pA, pB, pC].length (1 / 3) [2, 0, 1]).Nodup ∧
    ((1 : ℚ) / 3 = 0 → select [pA, pB, pC] (1 / 3) [2, 0, 1] = []) ∧
    ((1 : ℚ) / 3 = 1 → (sampleIdx [pA, pB, pC].length (1 / 3) [2, 0, 1]).Perm
      (List.range [pA, pB, pC].length)) :=
  subsample_count [pA, pB, pC] (1 / 3) [2, 0, 1] (by decide) (by norm_num) (by norm_num)

/- ------------------------------------------------------------------ -/
/- C7 — output order is the draw order, not ascending index order.     -/
/- ------------------------------------------------------------------ -/

/-- C7 counterexample: with the valid draw `[1, 0]` (a permutation of
`range 2`) and keep_ratio 1, the subsampling path returns the two distinct
records in the order `[pB, pA]` — the reverse of ascending original-index
order — and the sampled index sequence `[1, 0]` is not sorted. -/
theorem subsample_order_cex :
    ([1, 0] : List ℕ).Perm (List.range 2) ∧
    select [pA, pB] 1 [1, 0] = [pB, pA] ∧
    pB ≠ pA ∧
    ¬ List.Sorted (· ≤ ·) (sampleIdx 2 1 [1, 0]) := by
  have hkc : keepCount 2 1 = 2 := by
    have ht : truncQ ((2 : ℚ)) = 2 := by norm_num [truncQ]
    simp [keepCount, ht]
  refine ⟨by decide, ?_, ?_, ?_⟩
  · simp [select, sampleIdx, hkc, pA, pB]
  · simp [pA, pB]
  · rw [sampleIdx, hkc]
    decide

/-- C7 amended: the subsampling path returns the selected points in the
order of the random draw (the sampled index sequence), not necessarily in
ascending original-index order. -/
theorem subsample_draw_order (pts : List PRecord) (r : ℚ) (perm : List ℕ)
    (hb : ∀ i ∈ perm, i < pts.length) :
    select pts r perm =
      (sampleIdx pts.length r perm).map (fun i => pts.getD i ⟨0, 0, 0, []⟩) := by
  have hmain : ∀ l : List ℕ, (∀ i ∈ l, i < pts.length) →
      l.filterMap (fun i => pts[i]?) = l.map (fun i => pts.getD i ⟨0, 0, 0, []⟩) := by
    intro l
    induction l with
    | nil => intro _; rfl
    | cons a t ih =>
      intro h
      have ha : a < pts.length := h a (by simp)
      have h1 : pts[a]? = some pts[a] := List.getElem?_eq_getElem ha
      have h2 : pts.getD a ⟨0, 0, 0, []⟩ = pts[a] := by
        rw [List.getD_eq_getElem?_getD, h1]
        rfl
      simp [List.filterMap_cons, h1, h2, ih (fun i hi => h i (by simp [hi]))]
  exact hmain _ (fun i hi => hb i (List.mem_of_mem_take hi))

/-- Witness for the amended C7 at two points and the draw `[1, 0]`. -/
theorem subsample_draw_order_w :
    select [pA, pB] 1 [1, 0] =
      (sampleIdx [pA, pB].length 1 [1, 0]).map (fun i => [pA, pB].getD i ⟨0, 0, 0, []⟩) :=
  subsample_draw_order [pA, pB] 1 [1, 0] (by decide)

/- ------------------------------------------------------------------ -/
/- C8 — normal renormalization.                                        -/
/- ------------------------------------------------------------------ -/

lemma nrm_nonneg (n : ℝ × ℝ × ℝ) : 0 ≤ nrm n := Real.sqrt_nonneg _

lemma denom_pos (n : ℝ × ℝ × ℝ) : 0 < nrm n + 1 / 1000000000 := by
  have h := nrm_nonneg n
  linarith

lemma sqrt_triple_div (a b c d : ℝ) (hd : 0 < d) :
    Real.sqrt ((a / d) ^ 2 + (b / d) ^ 2 + (c / d) ^ 2) =
      Real.sqrt (a ^ 2 + b ^ 2 + c ^ 2) / d := by
  rw [div_pow, div_pow, div_pow, div_add_div_same, div_add_div_same,
    Real.sqrt_div (by positivity) _, Real.sqrt_sq hd.le]

lemma nrm_renormOne (n : ℝ × ℝ × ℝ) :
    nrm (renormOne n) = nrm n / (nrm n + 1 / 1000000000) := by
  have h := sqrt_triple_div n.1 n.2.1 n.2.2 (nrm n + 1 / 1000000000) (denom_pos n)
  simpa [nrm, renormOne] using h

/-- C8 (amended): renormalization is a no-op whenever any of `nx,ny,nz` is
absent from the schema; otherwise every record's normal is divided
componentwise by `sqrt(nx²+ny²+nz²) + 1e-9`, whose value is always
positive — zero normals cause no division by zero — so the resulting length
is exactly `‖n‖ / (‖n‖ + 1e-9)`; every record whose pre-normalization
length is at least `1/1000` ends within `1e-6` of unit length (records with
tiny non-zero normals do not — see the counterexample). -/
theorem renorm_unit (hx hy hz : Bool) (rs : List (ℝ × ℝ × ℝ)) (n : ℝ × ℝ × ℝ)
    (h : 1 / 1000 ≤ nrm n) :
    ((hx && hy && hz) = false → renormalize hx hy hz rs = rs) ∧
    renormalize true true true rs = rs.map renormOne ∧
    0 < nrm n + 1 / 1000000000 ∧
    nrm (renormOne n) = nrm n / (nrm n + 1 / 1000000000) ∧
    1 - 1 / 1000000 ≤ nrm (renormOne n) ∧ nrm (renormOne n) ≤ 1 := by
  refine ⟨?_, ?_, denom_pos n, nrm_renormOne n, ?_, ?_⟩
  · intro hf
    simp [renormalize, hf]
  · simp [renormalize]
  · rw [nrm_renormOne, le_div_iff (denom_pos n)]
    nlinarith [nrm_nonneg n]
  · rw [nrm_renormOne, div_le_one (denom_pos n)]
    linarith

/-- Witness for the amended C8: flags `(true, true, false)` give a no-op,
and the unit normal `(1,0,0)` stays within `1e-6` of unit length. -/
theorem renorm_unit_w :
    (((true : Bool) && true && false) = false →
      renormalize true true false [((1 : ℝ), 0, 0)] = [((1 : ℝ), 0, 0)]) ∧
    renormalize true true true [((1 : ℝ), 0, 0)] = [((1 : ℝ), 0, 0)].map renormOne ∧
    0 < nrm ((1 : ℝ), 0, 0) + 1 / 1000000000 ∧
    nrm (renormOne ((1 : ℝ), 0, 0)) =
      nrm ((1 : ℝ), 0, 0) / (nrm ((1 : ℝ), 0, 0) + 1 / 1000000000) ∧
    1 - 1 / 1000000 ≤ nrm (renormOne ((1 : ℝ), 0, 0)) ∧ nrm (renormOne ((1 : ℝ), 0, 0)) ≤ 1 :=
  renorm_unit true true false [((1 : ℝ), 0, 0)] ((1 : ℝ), 0, 0)
    (by
      have h1 : nrm ((1 : ℝ), 0, 0) = 1 := by
        simp [nrm]
      rw [h1]
      norm_num)

/-- C8 counterexample: the record with the non-zero pre-normalization
normal `(1e-6, 0, 0)` comes out of renormalization with length
`1e-6 / (1e-6 + 1e-9) = 1000/1001 ≈ 0.999`, strictly below `1 - 1e-6` —
the claimed `|n| = 1 ± 1e-6` fails for small non-zero normals. -/
theorem renorm_small_cex :
    ((1 / 1000000 : ℝ), (0 : ℝ), (0 : ℝ)) ≠ ((0 : ℝ), (0 : ℝ), (0 : ℝ)) ∧
    nrm ((renormalize true true true [((1 / 1000000 : ℝ), 0, 0)]).headD (0, 0, 0)) <
      1 - 1 / 1000000 := by
  constructor
  · simp only [ne_eq, Prod.mk.injEq, not_and]
    intro h
    norm_num at h
  · have h0 : renormalize true true true [((1 / 1000000 : ℝ), 0, 0)] =
        [renormOne ((1 / 1000000 : ℝ), 0, 0)] := by
      simp [renormalize]
    rw [h0]
    simp only [List.headD_cons]
    rw [nrm_renormOne]
    have hn : nrm ((1 / 1000000 : ℝ), 0, 0) = 1 / 1000000 := by
      have hsq : ((1 : ℝ) / 1000000) ^ 2 + 0 ^ 2 + 0 ^ 2 = (1 / 1000000) ^ 2 := by ring
      simp only [nrm]
      rw [hsq, Real.sqrt_sq (by norm_num)]
    rw [hn]
    norm_num

end Splat
